import Mathlib

/-!
Verification of the gcode-cli streaming pipeline.

The development shallowly embeds the three components of the tool:

* `BufferedLineReader` (src/buffered-line-reader.h): `refill`, `scanStep`
  (the terminator-scanning loop of `ReadNextLines`), `readNextLines`,
  and `drainFrom` (the main send loop reading batches until `is_eof()`).
  Byte streams are `List Char`; the POSIX `read` of up to `k` bytes is
  modelled by `List.take k` on the unread input.
* the response-classification engine of src/main.cc
  (`ReadResponseLine`, the per-block do/while loop, and the batch loop
  of `main` with `handle_error_or_exit` semantics).
* the transport opener of src/machine-connection.cc
  (`SetTTYParams` speed validation, `OpenTTY`, `OpenMachineConnection`
  with its TCP fallback), with the OS abstracted as record of oracles.

Reference functions (`splitLines`, `cleanLine`, `refBlocks`) state what the
cleaning pipeline computes; they are proved equal to the operational model.
-/

/-- Terminator bytes recognised by the scanning loop: `c == '\n' || c == '\r'`. -/
def isTermChar (c : Char) : Bool := c == '\n' || c == '\r'

/-- C `isspace` on the default locale: space, tab, newline,
vertical tab, form feed, carriage return. -/
def isSpaceChar (c : Char) : Bool :=
  c == ' ' || c == '\t' || c == '\n' || c == '\x0b' || c == '\x0c' || c == '\r'

/-- `while (first <= last && isspace(*first)) first++;` -/
def trimLeft (l : List Char) : List Char := l.dropWhile isSpaceChar

/-- `while (last >= first && isspace(*last)) last--;` -/
def trimRight (l : List Char) : List Char := (l.reverse.dropWhile isSpaceChar).reverse

/-- `BufferedLineReader::MakeCommentFreeLine(first, last)`.  The argument is
the inclusive range `[first, last]`, i.e. the line content together with its
terminator byte.  Comment truncation keeps the bytes strictly before the
first `';'`; then whitespace (terminator included) is trimmed from both
ends; a fresh `'\n'` is placed behind the surviving content; an all-blank
line yields `{}` (the empty list). -/
def makeCommentFreeLine (removeComments : Bool) (line : List Char) : List Char :=
  let l1 := if removeComments then line.takeWhile (fun c => c ≠ ';') else line
  let l2 := trimRight (trimLeft l1)
  if l2.isEmpty then [] else l2 ++ ['\n']

/-- Reference form of the cleaning of one logical line (content without its
terminator), following the spec wording: truncate at the first `';'`, trim
whitespace, drop the line if nothing remains, else append one `'\n'`. -/
def cleanLine (removeComments : Bool) (content : List Char) : Option (List Char) :=
  let t := trimRight (trimLeft
    (if removeComments then content.takeWhile (fun c => c ≠ ';') else content))
  if t.isEmpty then none else some (t ++ ['\n'])

/-- Logical lines of a byte stream: segments between terminator bytes
(`'\n'`/`'\r'`, treated identically); a final non-empty unterminated
segment is a line of its own. -/
def splitLines : List Char → List (List Char)
  | [] => []
  | c :: rest =>
    if isTermChar c then [] :: splitLines rest
    else
      match splitLines rest with
      | [] => [[c]]
      | s :: ss => (c :: s) :: ss

/-- Reference value of draining the reader: clean every logical line, drop
the empty results. -/
def refBlocks (removeComments : Bool) (input : List Char) : List (List Char) :=
  (splitLines input).filterMap (cleanLine removeComments)

/-- State of a `BufferedLineReader`: the unread bytes of the stream
(`input`), the `eof_` flag, the unconsumed window `[data_begin_, data_end_)`
and the `remainder_` (unterminated suffix kept across refills). -/
structure ReaderState where
  input : List Char
  eof : Bool
  window : List Char
  remainder : List Char
deriving DecidableEq

/-- `BufferedLineReader::Refill()`.  Moves the remainder to the front of the
buffer, reads at most `buffer_size - remainder.size()` further bytes; on
end of stream sets `eof_` and closes a non-empty remainder with a
synthesized `'\n'`.  Returns `data_end_ > data_begin_`. -/
def refill (bufSize : Nat) (st : ReaderState) : Bool × ReaderState :=
  if st.eof then (false, { st with window := [] })
  else
    let req := bufSize - st.remainder.length
    let chunk := st.input.take req
    if chunk.isEmpty then
      let w := if st.remainder.isEmpty then [] else st.remainder ++ ['\n']
      (!w.isEmpty, { input := st.input, eof := true, window := w, remainder := [] })
    else
      (true, { input := st.input.drop req, eof := false,
               window := st.remainder ++ chunk, remainder := [] })

/-- The scanning loop of `ReadNextLines`: repeatedly find the next
terminator (`find_if` walking the window), hand `[line_begin, terminator]`
to `MakeCommentFreeLine`, push non-empty results, and return early once
`result.size() >= n`; when no terminator remains the unterminated suffix
becomes the new remainder.  `cur` is the portion of the current line
already walked past (between `data_begin_` and the scan position).
Returns (result, window left, remainder). -/
def scanStep (removeComments : Bool) (n : Nat) :
    List (List Char) → List Char → List Char → List Char →
    List (List Char) × List Char × List Char
  | acc, cur, [], _rem => (acc, [], cur)
  | acc, cur, c :: rest, rem =>
    if isTermChar c then
      let b := makeCommentFreeLine removeComments (cur ++ [c])
      let acc' := if b.isEmpty then acc else acc ++ [b]
      if n ≤ acc'.length then (acc', rest, rem)
      else scanStep removeComments n acc' [] rest rem
    else scanStep removeComments n acc (cur ++ [c]) rest rem

/-- `BufferedLineReader::ReadNextLines(n)`: refill when the window is
consumed (returning empty if that fails), then run the scanning loop. -/
def readNextLines (bufSize : Nat) (removeComments : Bool) (n : Nat)
    (st : ReaderState) : List (List Char) × ReaderState :=
  if st.window.isEmpty then
    let r := refill bufSize st
    if r.1 then
      let s := scanStep removeComments n [] [] r.2.window r.2.remainder
      (s.1, { r.2 with window := s.2.1, remainder := s.2.2 })
    else ([], r.2)
  else
    let s := scanStep removeComments n [] [] st.window st.remainder
    (s.1, { st with window := s.2.1, remainder := s.2.2 })

/-- Weighted size of a reader state; strictly decreases across
`readNextLines` on a non-eof state (see `nuM`). -/
def rsMeasure (st : ReaderState) : Nat :=
  2 * st.input.length + st.window.length + st.remainder.length +
    (if st.eof then 0 else 2)

/-- Step bound for the main read loop. -/
def nuM (st : ReaderState) : Nat :=
  2 * rsMeasure st + (if st.window.isEmpty then 0 else 1)

/-- Fuelled form of the `while (!gcode_reader.is_eof())` loop of `main`,
collecting the batches returned by `ReadNextLines`.  `nuM st` fuel always
suffices (proved below), so `drainFrom` uses exactly that. -/
def drainFuel (bufSize : Nat) (removeComments : Bool) (n : Nat) :
    Nat → ReaderState → List (List Char)
  | 0, _ => []
  | fuel + 1, st =>
    if st.eof then []
    else
      let r := readNextLines bufSize removeComments n st
      r.1 ++ drainFuel bufSize removeComments n fuel r.2

/-- All blocks delivered by repeatedly calling `ReadNextLines` until
`is_eof()`, starting from `st`. -/
def drainFrom (bufSize : Nat) (removeComments : Bool) (n : Nat)
    (st : ReaderState) : List (List Char) :=
  drainFuel bufSize removeComments n (nuM st) st

/-- A freshly constructed reader over `input`. -/
def initState (input : List Char) : ReaderState :=
  { input := input, eof := false, window := [], remainder := [] }

/-- All blocks produced from a byte stream with a given buffer capacity. -/
def drainAll (bufSize : Nat) (removeComments : Bool) (n : Nat)
    (input : List Char) : List (List Char) :=
  drainFrom bufSize removeComments n (initState input)

/-- Pending bytes of a reader state: window, then remainder, then the
unread stream. -/
def pendingOf (st : ReaderState) : List Char :=
  st.window ++ st.remainder ++ st.input

/-- Invariant of reachable reader states (relative to the buffer capacity):
at eof everything is drained; otherwise the remainder is terminator-free,
window and remainder are not simultaneously non-empty, and every pending
logical line fits in the buffer. -/
def Good (bufSize : Nat) (st : ReaderState) : Prop :=
  (st.eof = true → st.window = [] ∧ st.remainder = [] ∧ st.input = []) ∧
  (st.eof = false →
    (∀ c ∈ st.remainder, isTermChar c = false) ∧
    (st.window = [] ∨ st.remainder = []) ∧
    (∀ l ∈ splitLines (pendingOf st), l.length < bufSize))

/-! ## Protocol engine (src/main.cc) -/

/-- Response classification of `ReadResponseLine`. -/
inductive AckResponse where
  | ok
  | err
  | message
deriving DecidableEq

/-- ASCII lower-casing as done by `strncasecmp`. -/
def charLower (c : Char) : Char :=
  if 'A' ≤ c ∧ c ≤ 'Z' then Char.ofNat (c.toNat + 32) else c

/-- `hasPrefixIgnoreCase(msg, pfx)`:
`msg.length() >= pfx.length() && strncasecmp(msg, pfx, pfx.length()) == 0`. -/
def hasPfxCaseless (msg pfx : List Char) : Bool :=
  decide (pfx.length ≤ msg.length) &&
    (msg.take pfx.length).map charLower == pfx.map charLower

def okPfx : List Char := ['o', 'k']
def errPfx : List Char := ['e', 'r', 'r', 'o', 'r']
def alarmPfx : List Char := ['a', 'l', 'a', 'r', 'm']

/-- The synthetic message produced when the response reader hits eof. -/
def connClosedMsg : List Char :=
  ("Nothing received from machine: Connection closed").toList

/-- `ReadResponseLine`: with flow control off, always `kOk` without reading.
Otherwise read one response line (the machine responses are modelled as the
list of cleaned lines the response reader will deliver; an exhausted list
is `is_eof()`).  A case-insensitive `ok` front is Ok; `error`/`alarm`
front is Error (with the line as message); anything else is Message.
Returns (classification, message to print, remaining responses). -/
def readResponseLine (useFlow : Bool) (resp : List (List Char)) :
    AckResponse × Option (List Char) × List (List Char) :=
  if useFlow = false then (.ok, none, resp)
  else
    match resp with
    | [] => (.err, some connClosedMsg, [])
    | m :: rest =>
      if hasPfxCaseless m okPfx then (.ok, none, rest)
      else if hasPfxCaseless m errPfx || hasPfxCaseless m alarmPfx then
        (.err, some m, rest)
      else (.message, some m, rest)

/-- The per-block `do { ... } while (response == kMessage)` loop of `main`,
including `handle_error_or_exit` on Error: interactive sessions continue
after `getchar()`, non-interactive ones `exit(1)`.
Returns (process continues?, remaining responses). -/
def processBlock (useFlow interactive : Bool) :
    List (List Char) → Bool × List (List Char)
  | [] => if useFlow then (interactive, []) else (true, [])
  | m :: rest =>
    if useFlow then
      if hasPfxCaseless m okPfx then (true, rest)
      else if hasPfxCaseless m errPfx || hasPfxCaseless m alarmPfx then
        (interactive, rest)
      else processBlock useFlow interactive rest
    else (true, m :: rest)

/-- The `for (const auto request : lines)` loop: await each block of the
batch in order, stopping when `handle_error_or_exit` terminated the
process. -/
def processBatch (useFlow interactive : Bool) :
    List (List Char) → List (List Char) → Bool × List (List Char)
  | [], resp => (true, resp)
  | _ :: bs, resp =>
    let r := processBlock useFlow interactive resp
    if r.1 then processBatch useFlow interactive bs r.2
    else (false, r.2)

/-- Outcome of a run of the send loop: blocks actually written to the
transport, whether the process exited early via `exit(1)`, and the
machine responses never consumed. -/
structure EngineResult where
  written : Nat
  exited : Bool
  respLeft : List (List Char)
deriving DecidableEq

/-- The batch loop of `main`: while the reader is not at eof, pull a batch
of up to `n` blocks, write them all at once (skipped in a dry run), then
await each block response in order. -/
def engineFuel (bufSize : Nat) (removeComments : Bool) (n : Nat)
    (useFlow interactive dryRun : Bool) :
    Nat → ReaderState → List (List Char) → Nat → EngineResult
  | 0, _, resp, written => ⟨written, false, resp⟩
  | fuel + 1, st, resp, written =>
    if st.eof then ⟨written, false, resp⟩
    else
      let r := readNextLines bufSize removeComments n st
      let written' := if dryRun then written else written + r.1.length
      let p := processBatch useFlow interactive r.1 resp
      if p.1 then
        engineFuel bufSize removeComments n useFlow interactive dryRun fuel r.2 p.2 written'
      else ⟨written', true, p.2⟩

/-- Run the engine from a reader state (with always-sufficient fuel). -/
def engineRun (bufSize : Nat) (removeComments : Bool) (n : Nat)
    (useFlow interactive dryRun : Bool) (st : ReaderState)
    (resp : List (List Char)) : EngineResult :=
  engineFuel bufSize removeComments n useFlow interactive dryRun (nuM st) st resp 0

/-- Observable outcome of `main` around the engine. -/
structure MainResult where
  openedTransport : Bool
  usedFlow : Bool
  initialDiscard : Bool
  engine : EngineResult
deriving DecidableEq

def devNullStr : List Char := ['/', 'd', 'e', 'v', '/', 'n', 'u', 'l', 'l']

/-- The configuration and run logic of `main`:
`is_dry_run |= (strcmp(connect_str, "/dev/null") == 0)`, the machine is
opened (and initial chatter discarded) only when not a dry run, and
`use_ok_flow_control &= !is_dry_run`. -/
def mainModel (dryFlag useFlowFlag interactive : Bool) (connectStr : List Char)
    (bufSize : Nat) (removeComments : Bool) (n : Nat) (input : List Char)
    (resp : List (List Char)) : MainResult :=
  let dry := dryFlag || decide (connectStr = devNullStr)
  let useFlow := useFlowFlag && !dry
  { openedTransport := !dry
    usedFlow := useFlow
    initialDiscard := !dry
    engine := engineRun bufSize removeComments n useFlow interactive dry
      (initState input) resp }

/-! ## Transport opener (src/machine-connection.cc) -/

/-- The speeds accepted by the `switch` in `SetTTYParams`. -/
def validSpeeds : List Nat := [9600, 19200, 38400, 57600, 115200, 230400, 460800]

def isDigitChar (c : Char) : Bool := decide ('0' ≤ c) && decide (c ≤ '9')

/-- Leading-digits value, as `atoi` computes it on the parameter strings at
hand (no leading whitespace or sign in a connection descriptor). -/
def atoiLoop : List Char → Nat → Nat
  | [], acc => acc
  | c :: rest, acc =>
    if isDigitChar c then atoiLoop rest (10 * acc + (c.toNat - 48)) else acc

def atoiModel (s : List Char) : Nat := atoiLoop s 0

/-- Strip the optional `b`/`B` bit-rate marker. -/
def stripSpeedB : List Char → List Char
  | [] => []
  | c :: rest => if c = 'b' ∨ c = 'B' then rest else c :: rest

def speedListMsg : List Char :=
  ("valid speeds are [9600, 19200, 38400, 57600, 115200, 230400, 460800]").toList

/-- The diagnostic printed for a speed outside `validSpeeds`, enumerating
the valid alternatives. -/
def invalidSpeedMsg (p : List Char) : List Char :=
  ("Invalid speed ").toList ++ p ++ ("; ").toList ++ speedListMsg

def tcgetattrMsg : List Char := ("tcgetattr() failed. Is this a tty ?").toList

/-- `SetTTYParams(fd, params)`: skip a leading `b`/`B`; a non-empty rest is
parsed by `atoi` and checked against the supported speeds, failing with the
enumerated list *before* any tty call; then `tcgetattr`/`tcsetattr`
(abstracted as the oracle bit `ttyOk`) must succeed. -/
def setTTYParams (ttyOk : Bool) (params : List Char) : Except (List Char) Unit :=
  let p := stripSpeedB params
  if p.isEmpty then (if ttyOk then .ok () else .error tcgetattrMsg)
  else if atoiModel p ∈ validSpeeds then
    (if ttyOk then .ok () else .error tcgetattrMsg)
  else .error (invalidSpeedMsg p)

/-- OS oracles: what `open(2)` yields on a path, whether the descriptor
supports the termios calls, and what the TCP resolution/connection of a
descriptor yields. -/
structure TtyOs where
  openPath : List Char → Option Nat
  ttyOk : Nat → Bool
  resolveTCP : List Char → Option Nat

/-- The parameter substring of a connection descriptor:
`*comma ? comma + 1 : ""` after `strchrnul(descriptor, ',')`. -/
def paramsOf (descriptor : List Char) : List Char :=
  match descriptor.dropWhile (fun c => c ≠ ',') with
  | [] => []
  | _ :: tail => tail

/-- `OpenTTY`: open the path before the first comma for read/write; on
success apply `SetTTYParams`, and on a parameter failure return `-1`
*without closing the descriptor*.
Returns (resulting fd, descriptors opened but never closed, configuration
diagnostic). -/
def openTTYModel (os : TtyOs) (descriptor : List Char) :
    Option Nat × List Nat × Option (List Char) :=
  let path := descriptor.takeWhile (fun c => c ≠ ',')
  match os.openPath path with
  | none => (none, [], none)
  | some fd =>
    match setTTYParams (os.ttyOk fd) (paramsOf descriptor) with
    | .ok _ => (some fd, [], none)
    | .error e => (none, [fd], some e)

/-- Result of `OpenMachineConnection`. -/
structure OpenOutcome where
  fd : Option Nat
  leakedFds : List Nat
  triedTCP : Bool
  configErr : Option (List Char)
deriving DecidableEq

/-- `OpenMachineConnection`: try the descriptor as a tty; whenever that
returns `-1` — also after a parameter-configuration failure — fall through
to `OpenTCPSocket`. -/
def openMachineConnectionModel (os : TtyOs) (descriptor : List Char) : OpenOutcome :=
  let t := openTTYModel os descriptor
  match t.1 with
  | some fd => ⟨some fd, t.2.1, false, t.2.2⟩
  | none => ⟨os.resolveTCP descriptor, t.2.1, true, t.2.2⟩

def ttyPath0 : List Char :=
  ['/', 'd', 'e', 'v', '/', 't', 't', 'y', 'A', 'C', 'M', '0']

def desc0 : List Char :=
  ttyPath0 ++ [','] ++ ['b', '9', '9', '9', '9', '9', '9', '9', '9', '9']

/-- A system in which the tty path opens as descriptor 3, the termios calls
would succeed, and nothing resolves as TCP. -/
def os0 : TtyOs :=
  { openPath := fun p => if p = ttyPath0 then some 3 else none
    ttyOk := fun _ => true
    resolveTCP := fun _ => none }

/-! ## Basic lemmas about characters, trimming and line splitting -/

theorem isSpaceChar_of_isTermChar {c : Char} (h : isTermChar c = true) :
    isSpaceChar c = true := by
  simp only [isTermChar, Bool.or_eq_true, beq_iff_eq] at h
  rcases h with h | h <;> simp [isSpaceChar, h]

theorem ne_semi_of_isTermChar {c : Char} (h : isTermChar c = true) : c ≠ ';' := by
  simp only [isTermChar, Bool.or_eq_true, beq_iff_eq] at h
  rcases h with h | h <;> simp [h]

theorem takeWhile_append_of_all {p : Char → Bool} :
    ∀ (l m : List Char), (∀ x ∈ l, p x = true) →
      (l ++ m).takeWhile p = l ++ m.takeWhile p
  | [], _, _ => rfl
  | a :: l, m, h => by
    have ha : p a = true := h a (List.mem_cons_self a l)
    simp only [List.cons_append, List.takeWhile_cons, ha, if_true]
    rw [takeWhile_append_of_all l m (fun x hx => h x (List.mem_cons_of_mem a hx))]

theorem takeWhile_append_of_not_all {p : Char → Bool} :
    ∀ (l m : List Char), ¬(∀ x ∈ l, p x = true) →
      (l ++ m).takeWhile p = l.takeWhile p
  | [], _, h => absurd (by simp) h
  | a :: l, m, h => by
    by_cases ha : p a = true
    · have hl : ¬(∀ x ∈ l, p x = true) := by
        intro hall
        refine h ?_
        intro x hx
        rcases List.mem_cons.1 hx with rfl | hx
        · exact ha
        · exact hall x hx
      simp only [List.cons_append, List.takeWhile_cons, ha, if_true]
      rw [takeWhile_append_of_not_all l m hl]
    · simp only [List.cons_append, List.takeWhile_cons, if_neg ha]

theorem trimRight_snoc_space {a : Char} (l : List Char)
    (ha : isSpaceChar a = true) : trimRight (l ++ [a]) = trimRight l := by
  simp [trimRight, List.reverse_append, List.dropWhile_cons, ha]

theorem trim_snoc_space {a : Char} (ha : isSpaceChar a = true) :
    ∀ l : List Char, trimRight (trimLeft (l ++ [a])) = trimRight (trimLeft l)
  | [] => by simp [trimLeft, trimRight, List.dropWhile_cons, ha]
  | b :: l => by
    by_cases hb : isSpaceChar b = true
    · simp only [trimLeft, List.cons_append, List.dropWhile_cons, hb, if_true]
      exact trim_snoc_space ha l
    · simp only [trimLeft, List.cons_append, List.dropWhile_cons, hb, if_false]
      rw [← List.cons_append]
      exact trimRight_snoc_space _ ha

theorem makeCommentFreeLine_term (rc : Bool) (cur : List Char) {t : Char}
    (ht : isTermChar t = true) :
    makeCommentFreeLine rc (cur ++ [t]) = (cleanLine rc cur).getD [] := by
  have hspace := isSpaceChar_of_isTermChar ht
  have hne := ne_semi_of_isTermChar ht
  have key : trimRight (trimLeft
        (if rc then (cur ++ [t]).takeWhile (fun c => c ≠ ';') else cur ++ [t])) =
      trimRight (trimLeft
        (if rc then cur.takeWhile (fun c => c ≠ ';') else cur)) := by
    cases rc
    · simpa using trim_snoc_space hspace cur
    · simp only [if_pos trivial]
      by_cases hall : ∀ x ∈ cur, decide (x ≠ ';') = true
      · rw [takeWhile_append_of_all cur [t] hall]
        have hcur : cur.takeWhile (fun c => decide (c ≠ ';')) = cur := by
          have := takeWhile_append_of_all cur [] hall
          simpa using this
        have htw : [t].takeWhile (fun c => decide (c ≠ ';')) = [t] := by
          simp [List.takeWhile_cons, hne]
        rw [htw, hcur]
        exact trim_snoc_space hspace cur
      · rw [takeWhile_append_of_not_all cur [t] hall]
  simp only [makeCommentFreeLine, cleanLine, key]
  rcases h2 : trimRight (trimLeft
      (if rc then cur.takeWhile (fun c => c ≠ ';') else cur)) with _ | ⟨c, l⟩
  · simp
  · simp

theorem splitLines_cons_eq (a : Char) (l : List Char) :
    splitLines (a :: l) =
      if isTermChar a then [] :: splitLines l
      else
        match splitLines l with
        | [] => [[a]]
        | s :: ss => (a :: s) :: ss := rfl

theorem splitLines_ne_nil : ∀ {l : List Char}, l ≠ [] → splitLines l ≠ []
  | [], h => absurd rfl h
  | c :: rest, _ => by
    rw [splitLines_cons_eq]
    by_cases hc : isTermChar c = true
    · simp [hc]
    · rw [if_neg hc]
      rcases h2 : splitLines rest with _ | ⟨s, ss⟩ <;> simp

theorem splitLines_append_term :
    ∀ (cur : List Char) {t : Char} (v : List Char),
    (∀ c ∈ cur, isTermChar c = false) → isTermChar t = true →
    splitLines (cur ++ t :: v) = cur :: splitLines v
  | [], _, v, _, ht => by simp [splitLines_cons_eq, ht]
  | a :: cur, t, v, h, ht => by
    have ha : isTermChar a = false := h a (List.mem_cons_self a cur)
    have ih := splitLines_append_term cur v
      (fun c hc => h c (List.mem_cons_of_mem a hc)) ht
    rw [List.cons_append, splitLines_cons_eq, if_neg (by simp [ha]), ih]

theorem splitLines_no_term :
    ∀ {l : List Char}, l ≠ [] → (∀ c ∈ l, isTermChar c = false) →
      splitLines l = [l]
  | [], h, _ => absurd rfl h
  | a :: rest, _, h => by
    have ha : isTermChar a = false := h a (List.mem_cons_self a rest)
    rcases hr : rest with _ | ⟨b, rest'⟩
    · simp [splitLines_cons_eq, splitLines, ha]
    · have ih := splitLines_no_term (l := rest) (by simp [hr])
        (fun c hc => h c (List.mem_cons_of_mem a hc))
      rw [hr] at ih
      rw [splitLines_cons_eq, if_neg (by simp [ha]), ih]

theorem splitLines_mem_no_term :
    ∀ {l s : List Char}, s ∈ splitLines l → ∀ c ∈ s, isTermChar c = false
  | [], _, hs => by simp [splitLines] at hs
  | a :: rest, s, hs => by
    by_cases ha : isTermChar a = true
    · rw [splitLines_cons_eq, if_pos ha] at hs
      rcases List.mem_cons.1 hs with rfl | hs
      · intro c hc; simp at hc
      · exact splitLines_mem_no_term hs
    · rw [splitLines_cons_eq, if_neg ha] at hs
      rcases h2 : splitLines rest with _ | ⟨s₀, ss⟩
      · rw [h2] at hs
        simp only [List.mem_singleton] at hs
        subst hs
        intro c hc
        simp only [List.mem_singleton] at hc
        subst hc
        exact Bool.not_eq_true _ ▸ ha
      · rw [h2] at hs
        rcases List.mem_cons.1 hs with rfl | hs
        · intro c hc
          rcases List.mem_cons.1 hc with rfl | hc
          · exact Bool.not_eq_true _ ▸ ha
          · exact splitLines_mem_no_term (l := rest)
              (h2 ▸ List.mem_cons_self s₀ ss) c hc
        · exact splitLines_mem_no_term (l := rest)
            (h2 ▸ List.mem_cons_of_mem s₀ hs)

theorem splitLines_first_len :
    ∀ (R v : List Char), R ≠ [] → (∀ c ∈ R, isTermChar c = false) →
      ∃ s ss, splitLines (R ++ v) = s :: ss ∧ R.length ≤ s.length
  | [], _, h, _ => absurd rfl h
  | [a], v, _, h => by
    have ha : isTermChar a = false := h a (List.mem_cons_self a [])
    rcases h2 : splitLines v with _ | ⟨s, ss⟩
    · refine ⟨[a], [], ?_, by simp⟩
      rw [List.singleton_append, splitLines_cons_eq, if_neg (by simp [ha]), h2]
    · refine ⟨a :: s, ss, ?_, by simp⟩
      rw [List.singleton_append, splitLines_cons_eq, if_neg (by simp [ha]), h2]
  | a :: b :: R', v, _, h => by
    have ha : isTermChar a = false := h a (List.mem_cons_self _ _)
    obtain ⟨s, ss, heq, hle⟩ := splitLines_first_len (b :: R') v (by simp)
      (fun c hc => h c (List.mem_cons_of_mem a hc))
    refine ⟨a :: s, ss, ?_, by simpa using Nat.succ_le_succ hle⟩
    simp only [List.cons_append] at heq ⊢
    rw [splitLines_cons_eq, if_neg (by simp [ha]), heq]

theorem splitLines_snoc_newline :
    ∀ (s : List Char) {c : Char}, isTermChar c = false →
      splitLines ((s ++ [c]) ++ ['\n']) = splitLines (s ++ [c])
  | [], c, hc => by
    have h1 : splitLines ['\n'] = [[]] := rfl
    simp only [List.nil_append, List.singleton_append, List.cons_append]
    rw [splitLines_cons_eq, if_neg (by simp [hc]), h1,
      splitLines_cons_eq, if_neg (by simp [hc])]
    rfl
  | a :: s, c, hc => by
    by_cases ha : isTermChar a = true
    · have ih := splitLines_snoc_newline s hc
      simp only [List.cons_append] at ih ⊢
      rw [splitLines_cons_eq, if_pos ha, splitLines_cons_eq (l := s ++ [c]),
        if_pos ha, ih]
    · have ih := splitLines_snoc_newline s hc
      have hne : splitLines (s ++ [c]) ≠ [] := splitLines_ne_nil (by simp)
      rcases h2 : splitLines (s ++ [c]) with _ | ⟨s₀, ss⟩
      · exact absurd h2 hne
      · rw [h2] at ih
        simp only [List.cons_append] at ih h2 ⊢
        rw [splitLines_cons_eq, if_neg ha, splitLines_cons_eq (l := s ++ [c]),
          if_neg ha, ih, h2]

/-! ## The scanning loop versus the reference line splitter -/

theorem cleanLine_eq (rc : Bool) (s : List Char) :
    cleanLine rc s =
      if (trimRight (trimLeft
          (if rc then s.takeWhile (fun c => c ≠ ';') else s))).isEmpty
      then none
      else some (trimRight (trimLeft
          (if rc then s.takeWhile (fun c => c ≠ ';') else s)) ++ ['\n']) := rfl

theorem cleanLine_ne_nil {rc : Bool} {s b : List Char}
    (h : cleanLine rc s = some b) : b ≠ [] := by
  rw [cleanLine_eq] at h
  by_cases he : (trimRight (trimLeft
      (if rc then s.takeWhile (fun c => c ≠ ';') else s))).isEmpty = true
  · rw [if_pos he] at h
    exact absurd h (by simp)
  · rw [if_neg he, Option.some_inj] at h
    simp [← h]

theorem scanStep_cons_eq (rc : Bool) (n : Nat) (acc : List (List Char))
    (cur : List Char) (c : Char) (rest rem : List Char) :
    scanStep rc n acc cur (c :: rest) rem =
      if isTermChar c then
        (if n ≤ (if (makeCommentFreeLine rc (cur ++ [c])).isEmpty then acc
                 else acc ++ [makeCommentFreeLine rc (cur ++ [c])]).length
         then ((if (makeCommentFreeLine rc (cur ++ [c])).isEmpty then acc
                else acc ++ [makeCommentFreeLine rc (cur ++ [c])]), rest, rem)
         else scanStep rc n
           (if (makeCommentFreeLine rc (cur ++ [c])).isEmpty then acc
            else acc ++ [makeCommentFreeLine rc (cur ++ [c])]) [] rest rem)
      else scanStep rc n acc (cur ++ [c]) rest rem := rfl

theorem accPush_eq (rc : Bool) (acc : List (List Char)) (cur : List Char)
    {c : Char} (hc : isTermChar c = true) :
    (if (makeCommentFreeLine rc (cur ++ [c])).isEmpty then acc
     else acc ++ [makeCommentFreeLine rc (cur ++ [c])]) =
    acc ++ (cleanLine rc cur).toList := by
  rw [makeCommentFreeLine_term rc cur hc]
  rcases h : cleanLine rc cur with _ | b
  · simp
  · have hb : b ≠ [] := cleanLine_ne_nil h
    simp [Option.getD, List.isEmpty_iff, hb]

theorem scanStep_spec (rc : Bool) (n : Nat) :
    ∀ (w cur : List Char) (acc res : List (List Char)) (w' r' : List Char),
    (∀ c ∈ cur, isTermChar c = false) →
    scanStep rc n acc cur w [] = (res, w', r') →
    ∃ segs : List (List Char),
      (∀ i : List Char,
        splitLines (cur ++ w ++ i) = segs ++ splitLines (w' ++ r' ++ i)) ∧
      res = acc ++ segs.filterMap (cleanLine rc) ∧
      (∀ c ∈ r', isTermChar c = false) ∧
      (w' = [] ∨ r' = [])
  | [], cur, acc, res, w', r', hcur, h => by
    rw [scanStep] at h
    obtain ⟨rfl, rfl, rfl⟩ := Prod.mk.injEq .. ▸ (by
      injection h with h1 h2
      injection h2 with h2 h3
      exact ⟨h1.symm, h2.symm, h3.symm⟩ :
        res = acc ∧ w' = [] ∧ r' = cur)
    exact ⟨[], fun i => by simp, by simp, hcur, Or.inl rfl⟩
  | c :: rest, cur, acc, res, w', r', hcur, h => by
    by_cases hc : isTermChar c = true
    · rw [scanStep_cons_eq, if_pos hc, accPush_eq rc acc cur hc] at h
      by_cases hn : n ≤ (acc ++ (cleanLine rc cur).toList).length
      · rw [if_pos hn] at h
        injection h with h1 h2
        injection h2 with h2 h3
        subst h1; subst h2; subst h3
        refine ⟨[cur], ?_, ?_, by simp, Or.inr rfl⟩
        · intro i
          have := splitLines_append_term cur (rest ++ i) hcur hc
          simp only [List.cons_append, List.append_assoc] at this ⊢
          rw [this]
          simp
        · rcases hcl : cleanLine rc cur with _ | b <;>
            simp [List.filterMap_cons, hcl]
      · rw [if_neg hn] at h
        obtain ⟨segs, hsp, hres, hr, hd⟩ := scanStep_spec rc n rest [] _ res w' r'
          (by intro x hx; simp at hx) h
        refine ⟨cur :: segs, ?_, ?_, hr, hd⟩
        · intro i
          have hterm := splitLines_append_term cur (rest ++ i) hcur hc
          have hrec := hsp i
          simp only [List.nil_append] at hrec
          simp only [List.cons_append, List.append_assoc] at hterm hrec ⊢
          rw [hterm, hrec]
        · rw [hres]
          rcases hcl : cleanLine rc cur with _ | b <;>
            simp [List.filterMap_cons, hcl, List.append_assoc]
    · rw [scanStep_cons_eq, if_neg hc] at h
      have hcur' : ∀ x ∈ cur ++ [c], isTermChar x = false := by
        intro x hx
        rcases List.mem_append.1 hx with hx | hx
        · exact hcur x hx
        · simp only [List.mem_singleton] at hx
          subst hx
          exact Bool.not_eq_true _ ▸ hc
      obtain ⟨segs, hsp, hres, hr, hd⟩ := scanStep_spec rc n rest (cur ++ [c])
        acc res w' r' hcur' h
      refine ⟨segs, ?_, hres, hr, hd⟩
      intro i
      have := hsp i
      simpa [List.append_assoc] using this

theorem scanStep_size (rc : Bool) (n : Nat) :
    ∀ (w cur : List Char) (acc res : List (List Char)) (rem w' r' : List Char),
    scanStep rc n acc cur w rem = (res, w', r') →
    w'.length + r'.length ≤ cur.length + w.length + rem.length ∧
    (w' ≠ [] →
      w'.length + r'.length < cur.length + w.length + rem.length)
  | [], cur, acc, res, rem, w', r', h => by
    rw [scanStep] at h
    injection h with h1 h2
    injection h2 with h2 h3
    subst h2; subst h3
    exact ⟨by simp, fun hne => absurd rfl hne⟩
  | c :: rest, cur, acc, res, rem, w', r', h => by
    by_cases hc : isTermChar c = true
    · rw [scanStep_cons_eq, if_pos hc] at h
      by_cases hn : n ≤ (if (makeCommentFreeLine rc (cur ++ [c])).isEmpty then acc
          else acc ++ [makeCommentFreeLine rc (cur ++ [c])]).length
      · rw [if_pos hn] at h
        injection h with h1 h2
        injection h2 with h2 h3
        subst h2; subst h3
        constructor
        · simp only [List.length_cons]
          omega
        · intro _
          simp only [List.length_cons]
          omega
      · rw [if_neg hn] at h
        obtain ⟨hle, _⟩ := scanStep_size rc n rest [] _ res rem w' r' h
        simp only [List.length_nil, List.length_cons] at hle ⊢
        exact ⟨by omega, fun _ => by omega⟩
    · rw [scanStep_cons_eq, if_neg hc] at h
      obtain ⟨hle, hlt⟩ := scanStep_size rc n rest (cur ++ [c]) acc res rem w' r' h
      simp only [List.length_append, List.length_singleton, List.length_cons,
        List.length_nil] at hle hlt ⊢
      exact ⟨by omega, fun hne => by have := hlt hne; omega⟩

theorem scanStep_term_window (rc : Bool) (n : Nat) :
    ∀ (R cur : List Char) (acc res : List (List Char)) (w' r' : List Char),
    (∀ c ∈ R, isTermChar c = false) →
    scanStep rc n acc cur (R ++ ['\n']) [] = (res, w', r') →
    w' = [] ∧ r' = []
  | [], cur, acc, res, w', r', _, h => by
    have hnl : isTermChar '\n' = true := rfl
    rw [List.nil_append, scanStep_cons_eq, if_pos hnl] at h
    by_cases hn : n ≤ (if (makeCommentFreeLine rc (cur ++ ['\n'])).isEmpty then acc
        else acc ++ [makeCommentFreeLine rc (cur ++ ['\n'])]).length
    · rw [if_pos hn] at h
      injection h with h1 h2
      injection h2 with h2 h3
      exact ⟨h2.symm, h3.symm⟩
    · rw [if_neg hn, scanStep] at h
      injection h with h1 h2
      injection h2 with h2 h3
      exact ⟨h2.symm, h3.symm⟩
  | a :: R, cur, acc, res, w', r', hR, h => by
    have ha : isTermChar a = false := hR a (List.mem_cons_self a R)
    rw [List.cons_append, scanStep_cons_eq, if_neg (by simp [ha])] at h
    exact scanStep_term_window rc n R (cur ++ [a]) acc res w' r'
      (fun c hc => hR c (List.mem_cons_of_mem a hc)) h

theorem scanStep_len_le (rc : Bool) (n : Nat) :
    ∀ (w cur : List Char) (acc : List (List Char)) (rem : List Char),
      (scanStep rc n acc cur w rem).1.length ≤ max n (acc.length + 1)
  | [], cur, acc, rem => by
    rw [scanStep]
    exact le_trans (Nat.le_succ _) (le_max_right _ _)
  | c :: rest, cur, acc, rem => by
    by_cases hc : isTermChar c = true
    · rw [scanStep_cons_eq, if_pos hc]
      have hacc : (if (makeCommentFreeLine rc (cur ++ [c])).isEmpty then acc
          else acc ++ [makeCommentFreeLine rc (cur ++ [c])]).length ≤ acc.length + 1 := by
        split <;> simp
      by_cases hn : n ≤ (if (makeCommentFreeLine rc (cur ++ [c])).isEmpty then acc
          else acc ++ [makeCommentFreeLine rc (cur ++ [c])]).length
      · rw [if_pos hn]
        exact le_trans hacc (le_max_right _ _)
      · rw [if_neg hn]
        refine le_trans (scanStep_len_le rc n rest [] _ rem) ?_
        have : (if (makeCommentFreeLine rc (cur ++ [c])).isEmpty then acc
            else acc ++ [makeCommentFreeLine rc (cur ++ [c])]).length + 1 ≤ n := by
          omega
        omega
    · rw [scanStep_cons_eq, if_neg hc]
      exact scanStep_len_le rc n rest (cur ++ [c]) acc rem

/-! ## Case equations for `readNextLines` -/

theorem readNextLines_w (bufSize : Nat) (rc : Bool) (n : Nat) (st : ReaderState)
    {res : List (List Char)} {w' r' : List Char}
    (hw : st.window.isEmpty = false)
    (hs : scanStep rc n [] [] st.window st.remainder = (res, w', r')) :
    readNextLines bufSize rc n st =
      (res, { st with window := w', remainder := r' }) := by
  simp only [readNextLines, hw, Bool.false_eq_true, if_false, hs]

theorem readNextLines_refill_read (bufSize : Nat) (rc : Bool) (n : Nat)
    (st : ReaderState) {res : List (List Char)} {w' r' : List Char}
    (he : st.eof = false) (hw : st.window.isEmpty = true)
    (hch : (st.input.take (bufSize - st.remainder.length)).isEmpty = false)
    (hs : scanStep rc n [] []
        (st.remainder ++ st.input.take (bufSize - st.remainder.length)) []
      = (res, w', r')) :
    readNextLines bufSize rc n st =
      (res, { input := st.input.drop (bufSize - st.remainder.length),
              eof := false, window := w', remainder := r' }) := by
  simp only [readNextLines, hw, if_true, refill, he, Bool.false_eq_true, if_false,
    hch, hs]

theorem readNextLines_stop_nil (bufSize : Nat) (rc : Bool) (n : Nat)
    (st : ReaderState)
    (he : st.eof = false) (hw : st.window.isEmpty = true)
    (hch : (st.input.take (bufSize - st.remainder.length)).isEmpty = true)
    (hr : st.remainder.isEmpty = true) :
    readNextLines bufSize rc n st =
      ([], { input := st.input, eof := true, window := [], remainder := [] }) := by
  simp only [readNextLines, hw, if_true, refill, he, Bool.false_eq_true, if_false,
    hch, hr, List.isEmpty_nil, Bool.not_true]

theorem readNextLines_stop_close (bufSize : Nat) (rc : Bool) (n : Nat)
    (st : ReaderState) {res : List (List Char)} {w' r' : List Char}
    (he : st.eof = false) (hw : st.window.isEmpty = true)
    (hch : (st.input.take (bufSize - st.remainder.length)).isEmpty = true)
    (hr : st.remainder.isEmpty = false)
    (hs : scanStep rc n [] [] (st.remainder ++ ['\n']) [] = (res, w', r')) :
    readNextLines bufSize rc n st =
      (res, { input := st.input, eof := true, window := w', remainder := r' }) := by
  have hwne : (st.remainder ++ ['\n']).isEmpty = false := by
    simp
  simp only [readNextLines, hw, if_true, refill, he, Bool.false_eq_true, if_false,
    hch, hr, hwne, Bool.not_false, if_true, hs]

/-! ## Termination measure of the main read loop -/

theorem if_bool_false {α : Sort _} (a b : α) : (if false = true then a else b) = b := rfl

theorem if_bool_true {α : Sort _} (a b : α) : (if true = true then a else b) = a := rfl

theorem nuM_step (bufSize : Nat) (rc : Bool) (n : Nat) (st : ReaderState)
    (he : st.eof = false) :
    nuM (readNextLines bufSize rc n st).2 < nuM st := by
  by_cases hw : st.window.isEmpty = true
  · have hwnil : st.window = [] := List.isEmpty_iff.1 hw
    by_cases hch : (st.input.take (bufSize - st.remainder.length)).isEmpty = true
    · by_cases hr : st.remainder.isEmpty = true
      · have hrnil : st.remainder = [] := List.isEmpty_iff.1 hr
        rw [readNextLines_stop_nil bufSize rc n st he hw hch hr]
        simp [nuM, rsMeasure, he, hwnil, hrnil]
      · rcases hs : scanStep rc n [] [] (st.remainder ++ ['\n']) []
          with ⟨res, w', r'⟩
        rw [readNextLines_stop_close bufSize rc n st he hw hch
          (Bool.not_eq_true _ ▸ hr) hs]
        obtain ⟨hle, _⟩ :=
          scanStep_size rc n (st.remainder ++ ['\n']) [] [] res [] w' r' hs
        simp only [List.length_nil, List.length_append, List.length_singleton] at hle
        have hcase : (if (w' : List Char).isEmpty then (0 : Nat) else 1) ≤ 1 := by
          split <;> omega
        simp only [nuM, rsMeasure, he, hwnil, List.length_nil, List.isEmpty_nil,
          if_bool_true, if_bool_false, if_true, eq_self_iff_true]
        omega
    · rcases hs : scanStep rc n [] []
          (st.remainder ++ st.input.take (bufSize - st.remainder.length)) []
        with ⟨res, w', r'⟩
      rw [readNextLines_refill_read bufSize rc n st he hw
        (Bool.not_eq_true _ ▸ hch) hs]
      obtain ⟨hle, _⟩ := scanStep_size rc n
        (st.remainder ++ st.input.take (bufSize - st.remainder.length))
        [] [] res [] w' r' hs
      have hkpos : 0 < (st.input.take (bufSize - st.remainder.length)).length := by
        rcases hta : st.input.take (bufSize - st.remainder.length) with _ | ⟨a, t⟩
        · rw [hta] at hch
          exact absurd rfl hch
        · simp [hta]
      have hk : (st.input.take (bufSize - st.remainder.length)).length =
          min (bufSize - st.remainder.length) st.input.length :=
        List.length_take _ _
      have hdrop : (st.input.drop (bufSize - st.remainder.length)).length =
          st.input.length - (bufSize - st.remainder.length) :=
        List.length_drop _ _
      have hcase : (if (w' : List Char).isEmpty then (0 : Nat) else 1) ≤ 1 := by
        split <;> omega
      simp only [List.length_nil, List.length_append] at hle
      simp only [nuM, rsMeasure, he, hwnil, hdrop, List.length_nil,
        List.isEmpty_nil, if_bool_true, if_bool_false, if_true, eq_self_iff_true]
      omega
  · rcases hs : scanStep rc n [] [] st.window st.remainder with ⟨res, w', r'⟩
    rw [readNextLines_w bufSize rc n st (Bool.not_eq_true _ ▸ hw) hs]
    obtain ⟨hle, hlt⟩ := scanStep_size rc n st.window [] [] res st.remainder w' r' hs
    simp only [List.length_nil] at hle hlt
    have hwpos : 0 < st.window.length := by
      rcases hwin : st.window with _ | ⟨a, t⟩
      · rw [hwin] at hw
        exact absurd rfl hw
      · simp [hwin]
    by_cases hw' : (w' : List Char).isEmpty = true
    · simp only [nuM, rsMeasure, he, hw, hw', if_bool_false, if_true, if_false]
      omega
    · have hlt' := hlt (by
        intro hnil
        rw [hnil] at hw'
        exact hw' rfl)
      simp only [nuM, rsMeasure, he, hw, hw', if_bool_false, if_true, if_false]
      omega

/-! ## One step of the read loop against the reference blocks -/

theorem input_nil_of_chunk_nil (bufSize : Nat) (st : ReaderState)
    (hrem : ∀ c ∈ st.remainder, isTermChar c = false)
    (hfit : ∀ l ∈ splitLines (pendingOf st), l.length < bufSize)
    (hwnil : st.window = [])
    (hch : (st.input.take (bufSize - st.remainder.length)).isEmpty = true) :
    st.input = [] := by
  have hch' : st.input.take (bufSize - st.remainder.length) = [] :=
    List.isEmpty_iff.1 hch
  by_contra hne
  have hreq : bufSize - st.remainder.length = 0 := by
    rcases List.take_eq_nil_iff.1 hch' with h | h
    · exact h
    · exact absurd h hne
  have hpend : pendingOf st = st.remainder ++ st.input := by
    simp [pendingOf, hwnil]
  rcases hremnil : st.remainder with _ | ⟨a, t⟩
  · have hbuf : bufSize = 0 := by
      rw [hremnil] at hreq
      simpa using hreq
    have hne' : pendingOf st ≠ [] := by
      rw [hpend, hremnil]
      simpa using hne
    obtain ⟨s, hs⟩ := List.exists_mem_of_ne_nil _ (splitLines_ne_nil hne')
    have := hfit s hs
    omega
  · obtain ⟨s, ss, heq, hle⟩ := splitLines_first_len st.remainder st.input
      (by rw [hremnil]; simp) hrem
    have hsmem : s ∈ splitLines (pendingOf st) := by
      rw [hpend, heq]
      exact List.mem_cons_self s ss
    have h1 := hfit s hsmem
    have h2 : bufSize ≤ st.remainder.length := by omega
    omega

theorem readNextLines_step (bufSize : Nat) (rc : Bool) (n : Nat)
    (st : ReaderState) (he : st.eof = false) (hg : Good bufSize st) :
    refBlocks rc (pendingOf st) =
      (readNextLines bufSize rc n st).1 ++
        refBlocks rc (pendingOf (readNextLines bufSize rc n st).2) ∧
    Good bufSize (readNextLines bufSize rc n st).2 := by
  obtain ⟨hrem, hdisj, hfit⟩ := hg.2 he
  by_cases hw : st.window.isEmpty = true
  · have hwnil : st.window = [] := List.isEmpty_iff.1 hw
    by_cases hch : (st.input.take (bufSize - st.remainder.length)).isEmpty = true
    · have hinil : st.input = [] :=
        input_nil_of_chunk_nil bufSize st hrem hfit hwnil hch
      by_cases hr : st.remainder.isEmpty = true
      · have hrnil : st.remainder = [] := List.isEmpty_iff.1 hr
        rw [readNextLines_stop_nil bufSize rc n st he hw hch hr]
        constructor
        · simp [pendingOf, hwnil, hrnil, hinil, refBlocks, splitLines]
        · exact ⟨fun _ => ⟨rfl, rfl, hinil⟩, fun h => by simp at h⟩
      · have hrne : st.remainder ≠ [] := by
          intro h
          rw [h] at hr
          exact hr rfl
        rcases hs : scanStep rc n [] [] (st.remainder ++ ['\n']) []
          with ⟨res, w', r'⟩
        obtain ⟨hw', hr'⟩ := scanStep_term_window rc n st.remainder [] [] res w' r'
          hrem hs
        subst hw'; subst hr'
        rw [readNextLines_stop_close bufSize rc n st he hw hch
          (Bool.not_eq_true _ ▸ hr) hs]
        obtain ⟨segs, hsp, hres, _, _⟩ := scanStep_spec rc n
          (st.remainder ++ ['\n']) [] [] res [] [] (by simp) hs
        have hsegs : segs = [st.remainder] := by
          have h0 := hsp []
          simp only [List.nil_append, List.append_nil] at h0
          have h1 : splitLines (st.remainder ++ ['\n']) = [st.remainder] := by
            have := splitLines_append_term st.remainder (t := '\n') ([] : List Char)
              hrem (by decide)
            simpa using this
          rw [h1] at h0
          simpa [splitLines] using h0.symm
        constructor
        · have hpend : pendingOf st = st.remainder := by
            simp [pendingOf, hwnil, hinil]
          rw [hpend]
          have hsplit : splitLines st.remainder = [st.remainder] :=
            splitLines_no_term hrne hrem
          simp [refBlocks, hsplit, hres, hsegs, splitLines, pendingOf, hinil]
        · exact ⟨fun _ => ⟨rfl, rfl, hinil⟩, fun h => by simp at h⟩
    · rcases hs : scanStep rc n [] []
          (st.remainder ++ st.input.take (bufSize - st.remainder.length)) []
        with ⟨res, w', r'⟩
      rw [readNextLines_refill_read bufSize rc n st he hw
        (Bool.not_eq_true _ ▸ hch) hs]
      obtain ⟨segs, hsp, hres, hr', hdisj'⟩ := scanStep_spec rc n
        (st.remainder ++ st.input.take (bufSize - st.remainder.length)) []
        [] res w' r' (by simp) hs
      have hpend : pendingOf st =
          (st.remainder ++ st.input.take (bufSize - st.remainder.length)) ++
            st.input.drop (bufSize - st.remainder.length) := by
        simp [pendingOf, hwnil, List.append_assoc]
      have hkey := hsp (st.input.drop (bufSize - st.remainder.length))
      simp only [List.nil_append] at hkey
      have hsplit : splitLines (pendingOf st) =
          segs ++ splitLines (w' ++ r' ++
            st.input.drop (bufSize - st.remainder.length)) := by
        rw [hpend, ← hkey]
      constructor
      · rw [refBlocks, hsplit, List.filterMap_append, hres]
        simp [refBlocks, pendingOf, List.append_assoc]
      · refine ⟨fun h => by simp at h, fun _ => ⟨hr', hdisj', ?_⟩⟩
        intro l hl
        refine hfit l ?_
        rw [hsplit]
        refine List.mem_append_right segs ?_
        simpa [pendingOf] using hl
  · have hwne : st.window ≠ [] := by
      intro h
      rw [h] at hw
      exact hw rfl
    have hrnil : st.remainder = [] := by
      rcases hdisj with h | h
      · exact absurd h hwne
      · exact h
    rcases hs : scanStep rc n [] [] st.window st.remainder with ⟨res, w', r'⟩
    rw [readNextLines_w bufSize rc n st (Bool.not_eq_true _ ▸ hw) hs]
    rw [hrnil] at hs
    obtain ⟨segs, hsp, hres, hr', hdisj'⟩ := scanStep_spec rc n
      st.window [] [] res w' r' (by simp) hs
    have hkey := hsp st.input
    simp only [List.nil_append] at hkey
    have hsplit : splitLines (pendingOf st) =
        segs ++ splitLines (w' ++ r' ++ st.input) := by
      have hpend : pendingOf st = st.window ++ st.input := by
        simp [pendingOf, hrnil]
      rw [hpend, ← hkey]
    constructor
    · rw [refBlocks, hsplit, List.filterMap_append, hres]
      simp [refBlocks, pendingOf, List.append_assoc]
    · refine ⟨fun h => by rw [h] at he; exact absurd he (by simp), fun _ => ⟨hr', hdisj', ?_⟩⟩
      intro l hl
      refine hfit l ?_
      rw [hsplit]
      refine List.mem_append_right segs ?_
      simpa [pendingOf] using hl

/-! ## The reader delivers exactly the reference blocks -/

theorem drainFuel_eq (bufSize : Nat) (rc : Bool) (n : Nat) :
    ∀ (fuel : Nat) (st : ReaderState), nuM st ≤ fuel → Good bufSize st →
      drainFuel bufSize rc n fuel st = refBlocks rc (pendingOf st)
  | 0, st, hf, hg => by
    have heof : st.eof = true := by
      cases hb : st.eof
      · rw [nuM, rsMeasure, hb] at hf
        simp only [Bool.false_eq_true, if_false] at hf
        omega
      · rfl
    obtain ⟨h1, h2, h3⟩ := hg.1 heof
    have hpend : pendingOf st = [] := by simp [pendingOf, h1, h2, h3]
    rw [drainFuel, hpend]
    rfl
  | fuel + 1, st, hf, hg => by
    by_cases heof : st.eof = true
    · obtain ⟨h1, h2, h3⟩ := hg.1 heof
      have hpend : pendingOf st = [] := by simp [pendingOf, h1, h2, h3]
      rw [drainFuel, if_pos heof, hpend]
      rfl
    · have he : st.eof = false := by
        cases hb : st.eof
        · rfl
        · exact absurd hb heof
      obtain ⟨heq, hg'⟩ := readNextLines_step bufSize rc n st he hg
      have hlt := nuM_step bufSize rc n st he
      have hf' : nuM (readNextLines bufSize rc n st).2 ≤ fuel := by omega
      simp only [drainFuel, he, Bool.false_eq_true, if_false]
      rw [drainFuel_eq bufSize rc n fuel _ hf' hg']
      exact heq.symm

theorem drainFrom_eq_refBlocks (bufSize : Nat) (rc : Bool) (n : Nat)
    (st : ReaderState) (hg : Good bufSize st) :
    drainFrom bufSize rc n st = refBlocks rc (pendingOf st) :=
  drainFuel_eq bufSize rc n (nuM st) st (le_refl _) hg

theorem goodInit (bufSize : Nat) (input : List Char)
    (hfit : ∀ l ∈ splitLines input, l.length < bufSize) :
    Good bufSize (initState input) := by
  refine ⟨fun h => by simp [initState] at h, fun _ => ⟨by simp [initState], ?_, ?_⟩⟩
  · exact Or.inl rfl
  · simpa [pendingOf, initState] using hfit

theorem drainAll_eq_refBlocks (bufSize : Nat) (rc : Bool) (n : Nat)
    (input : List Char)
    (hfit : ∀ l ∈ splitLines input, l.length < bufSize) :
    drainAll bufSize rc n input = refBlocks rc input := by
  rw [drainAll, drainFrom_eq_refBlocks bufSize rc n _ (goodInit bufSize input hfit)]
  simp [pendingOf, initState]

/-! ## Shape of emitted blocks -/

theorem mem_trimRight {c : Char} {l : List Char} (h : c ∈ trimRight l) : c ∈ l := by
  rw [trimRight, List.mem_reverse] at h
  exact List.mem_reverse.1 ((List.dropWhile_sublist _).mem h)

theorem mem_trimLeft {c : Char} {l : List Char} (h : c ∈ trimLeft l) : c ∈ l :=
  (List.dropWhile_sublist _).mem h

theorem cleanLine_some_spec {rc : Bool} {s b : List Char}
    (h : cleanLine rc s = some b) :
    ∃ t, b = t ++ ['\n'] ∧ t ≠ [] ∧ ∀ c ∈ t, c ∈ s := by
  rw [cleanLine_eq] at h
  by_cases he : (trimRight (trimLeft
      (if rc then s.takeWhile (fun c => c ≠ ';') else s))).isEmpty = true
  · rw [if_pos he] at h
    exact absurd h (by simp)
  · rw [if_neg he, Option.some_inj] at h
    refine ⟨trimRight (trimLeft
      (if rc then s.takeWhile (fun c => c ≠ ';') else s)), h.symm, ?_, ?_⟩
    · intro hnil
      rw [hnil] at he
      exact he rfl
    · intro c hc
      have h1 := mem_trimLeft (mem_trimRight hc)
      cases rc
      · simpa using h1
      · simp only [if_pos trivial] at h1
        exact (List.takeWhile_sublist _).mem h1

theorem refBlocks_mem_shape {rc : Bool} {input b : List Char}
    (hb : b ∈ refBlocks rc input) :
    ∃ t, b = t ++ ['\n'] ∧ t ≠ [] ∧ ∀ c ∈ t, isTermChar c = false := by
  obtain ⟨s, hs, hcl⟩ := List.mem_filterMap.1 hb
  obtain ⟨t, rfl, htne, hsub⟩ := cleanLine_some_spec hcl
  exact ⟨t, rfl, htne, fun c hc => splitLines_mem_no_term hs c (hsub c hc)⟩

theorem cleanLine_nil (rc : Bool) : cleanLine rc [] = none := by
  cases rc <;> rfl

theorem refBlocks_single_line (rc : Bool) (l : List Char)
    (hl : ∀ c ∈ l, isTermChar c = false) :
    refBlocks rc (l ++ ['\n']) = (cleanLine rc l).toList := by
  have hsplit : splitLines (l ++ ['\n']) = [l] := by
    have := splitLines_append_term l (t := '\n') [] hl (by decide)
    simpa using this
  rw [refBlocks, hsplit]
  rcases h : cleanLine rc l with _ | b <;> simp [List.filterMap_cons, h]

theorem refBlocks_crlf_line (rc : Bool) (l : List Char)
    (hl : ∀ c ∈ l, isTermChar c = false) :
    refBlocks rc (l ++ ['\r', '\n']) = (cleanLine rc l).toList := by
  have hsplit : splitLines (l ++ ['\r', '\n']) = [l, []] := by
    have h1 := splitLines_append_term l (t := '\r') ['\n'] hl (by decide)
    have h2 : splitLines ['\n'] = [[]] := rfl
    rw [show (l ++ ['\r', '\n'] : List Char) = l ++ '\r' :: ['\n'] from by simp,
      h1, h2]
  rw [refBlocks, hsplit]
  rcases h : cleanLine rc l with _ | b <;>
    simp [List.filterMap_cons, h, cleanLine_nil]

/-! ## Claims about the chunked line source -/

/-- Claim C3: every emitted cleaned block is the trimmed line content
followed by exactly one `'\n'` terminator byte (the content itself contains
no terminator byte, so never a terminator pair), and a line terminated by
`"\r\n"` and the otherwise-identical line terminated by `"\n"` produce
byte-identical cleaned blocks. -/
theorem c3_single_terminator (bufSize n : Nat) (rc : Bool) :
    (∀ input : List Char, (∀ l ∈ splitLines input, l.length < bufSize) →
      ∀ b ∈ drainAll bufSize rc n input,
        ∃ t, b = t ++ ['\n'] ∧ t ≠ [] ∧ ∀ c ∈ t, isTermChar c = false) ∧
    (∀ l : List Char, (∀ c ∈ l, isTermChar c = false) → l.length < bufSize →
      drainAll bufSize rc n (l ++ ['\r', '\n']) =
        drainAll bufSize rc n (l ++ ['\n'])) := by
  constructor
  · intro input hfit b hb
    rw [drainAll_eq_refBlocks bufSize rc n input hfit] at hb
    exact refBlocks_mem_shape hb
  · intro l hl hlen
    have hs1 : splitLines (l ++ ['\n']) = [l] := by
      simpa using splitLines_append_term l (t := '\n') [] hl (by decide)
    have hs2 : splitLines (l ++ ['\r', '\n']) = [l, []] := by
      have h1 := splitLines_append_term l (t := '\r') ['\n'] hl (by decide)
      rw [show (l ++ ['\r', '\n'] : List Char) = l ++ '\r' :: ['\n'] from by simp,
        h1]
      rfl
    have hfit1 : ∀ s ∈ splitLines (l ++ ['\n']), s.length < bufSize := by
      rw [hs1]
      intro s hs
      simp only [List.mem_singleton] at hs
      subst hs
      exact hlen
    have hfit2 : ∀ s ∈ splitLines (l ++ ['\r', '\n']), s.length < bufSize := by
      rw [hs2]
      intro s hs
      rcases List.mem_cons.1 hs with rfl | hs
      · exact hlen
      · simp only [List.mem_singleton] at hs
        subst hs
        simp only [List.length_nil]
        omega
    rw [drainAll_eq_refBlocks bufSize rc n _ hfit1,
      drainAll_eq_refBlocks bufSize rc n _ hfit2,
      refBlocks_crlf_line rc l hl, refBlocks_single_line rc l hl]

/-- Witness for C3 at a concrete input. -/
theorem c3_witness :
    ((∀ l ∈ splitLines ['G', '1', '\n'], l.length < 8) ∧
      ['G', '1', '\n'] ∈ drainAll 8 true 1 ['G', '1', '\n'] ∧
      (∀ c ∈ ['G', '1'], isTermChar c = false) ∧
      ([' ', 'G', '1'] : List Char).length < 8) ∧
    (∃ t, ['G', '1', '\n'] = t ++ ['\n'] ∧ t ≠ [] ∧
      ∀ c ∈ t, isTermChar c = false) ∧
    drainAll 8 true 1 (['G', '1'] ++ ['\r', '\n']) =
      drainAll 8 true 1 (['G', '1'] ++ ['\n']) :=
  ⟨⟨by decide, by decide, by decide, by decide⟩,
   (c3_single_terminator 8 1 true).1 ['G', '1', '\n'] (by decide)
     ['G', '1', '\n'] (by decide),
   (c3_single_terminator 8 1 true).2 ['G', '1'] (by decide) (by decide)⟩

/-- Claim C4: cleaning truncates the line at the first `';'` when comment
removal is enabled, then trims whitespace (including the terminator); the
pipeline emits exactly the block `cleanLine` describes, and when nothing
remains (whitespace-only or comment-only line) no block is emitted. -/
theorem c4_clean_collapse (bufSize n : Nat) (l : List Char)
    (hl : ∀ c ∈ l, isTermChar c = false) (hlen : l.length < bufSize) :
    drainAll bufSize true n (l ++ ['\n']) = (cleanLine true l).toList ∧
    ((∀ c ∈ l.takeWhile (fun c => c ≠ ';'), isSpaceChar c = true) →
      drainAll bufSize true n (l ++ ['\n']) = []) := by
  have hs1 : splitLines (l ++ ['\n']) = [l] := by
    simpa using splitLines_append_term l (t := '\n') [] hl (by decide)
  have hfit1 : ∀ s ∈ splitLines (l ++ ['\n']), s.length < bufSize := by
    rw [hs1]
    intro s hs
    simp only [List.mem_singleton] at hs
    subst hs
    exact hlen
  have hmain : drainAll bufSize true n (l ++ ['\n']) = (cleanLine true l).toList := by
    rw [drainAll_eq_refBlocks bufSize true n _ hfit1,
      refBlocks_single_line true l hl]
  refine ⟨hmain, fun hblank => ?_⟩
  have htl : trimLeft (l.takeWhile (fun c => c ≠ ';')) = [] := by
    rw [trimLeft, List.dropWhile_eq_nil_iff]
    exact fun x hx => hblank x hx
  have hnone : cleanLine true l = none := by
    have hcond : trimRight (trimLeft
        (if (true : Bool) then l.takeWhile (fun c => c ≠ ';') else l)) = [] := by
      rw [if_pos rfl, htl]
      rfl
    rw [cleanLine_eq, hcond]
    rfl
  rw [hmain, hnone]
  rfl

/-- Witness for C4 on a comment-only line. -/
theorem c4_witness :
    ((∀ c ∈ [';', 'c'], isTermChar c = false) ∧
      ([';', 'c'] : List Char).length < 8 ∧
      (∀ c ∈ ([';', 'c'] : List Char).takeWhile (fun c => c ≠ ';'),
        isSpaceChar c = true)) ∧
    drainAll 8 true 1 ([';', 'c'] ++ ['\n']) = [] :=
  ⟨⟨by decide, by decide, by decide⟩,
   (c4_clean_collapse 8 1 [';', 'c'] (by decide) (by decide)).2 (by decide)⟩

/-- Claim C5 counterexample: with capacity 4 over `";c\nG1\n"`, the first
`ReadNextLines(1)` call returns an empty batch although the stream is not
exhausted and the source still holds the terminated non-empty line
`"G1\n"` (which later calls deliver). -/
theorem c5_counterexample :
    (readNextLines 4 true 1 (initState [';', 'c', '\n', 'G', '1', '\n'])).1 = [] ∧
    (readNextLines 4 true 1
      (initState [';', 'c', '\n', 'G', '1', '\n'])).2.eof = false ∧
    refBlocks true (pendingOf (readNextLines 4 true 1
      (initState [';', 'c', '\n', 'G', '1', '\n'])).2) = [['G', '1', '\n']] := by
  decide

/-- Claim C5 (amended): `ReadNextLines` can return an empty batch while the
stream still holds deliverable blocks (buffer switchover); such an empty
batch loses nothing — draining from the post-call state still yields
exactly the blocks of everything that was pending before the call. -/
theorem c5_empty_batch_loses_nothing (bufSize n : Nat) (rc : Bool)
    (st : ReaderState) (he : st.eof = false) (hg : Good bufSize st)
    (hempty : (readNextLines bufSize rc n st).1 = []) :
    drainFrom bufSize rc n (readNextLines bufSize rc n st).2 =
      refBlocks rc (pendingOf st) := by
  obtain ⟨heq, hg'⟩ := readNextLines_step bufSize rc n st he hg
  rw [drainFrom_eq_refBlocks bufSize rc n _ hg', heq, hempty, List.nil_append]

/-- Witness for the amended C5 at the counterexample state. -/
theorem c5_witness :
    ((initState [';', 'c', '\n', 'G', '1', '\n']).eof = false ∧
      Good 4 (initState [';', 'c', '\n', 'G', '1', '\n']) ∧
      (readNextLines 4 true 1
        (initState [';', 'c', '\n', 'G', '1', '\n'])).1 = []) ∧
    drainFrom 4 true 1 (readNextLines 4 true 1
        (initState [';', 'c', '\n', 'G', '1', '\n'])).2 =
      refBlocks true (pendingOf (initState [';', 'c', '\n', 'G', '1', '\n'])) :=
  ⟨⟨by decide, goodInit 4 _ (by decide), by decide⟩,
   c5_empty_batch_loses_nothing 4 1 true _ (by decide)
     (goodInit 4 _ (by decide)) (by decide)⟩

/-- Claim C6 counterexample: `ReadNextLines(0)` can return one block — the
bound is checked only after a line has been processed. -/
theorem c6_counterexample :
    (readNextLines 8 true 0 (initState ['G', '1', '\n'])).1.length = 1 := by
  decide

/-- Claim C6 (amended): `ReadNextLines(n)` returns at most `n` blocks for
every `n ≥ 1`; for `n = 0` it can return one block, so the uniform bound
is `max 1 n`. -/
theorem c6_batch_bound (bufSize : Nat) (rc : Bool) (n : Nat) (st : ReaderState) :
    (readNextLines bufSize rc n st).1.length ≤ max 1 n := by
  have hb : ∀ (w rem : List Char),
      (scanStep rc n [] [] w rem).1.length ≤ max 1 n := by
    intro w rem
    have := scanStep_len_le rc n w [] [] rem
    simpa [Nat.max_comm] using this
  by_cases hw : st.window.isEmpty = true
  · rcases hrf : refill bufSize st with ⟨ok, st'⟩
    by_cases hok : ok = true
    · rcases hs : scanStep rc n [] [] st'.window st'.remainder with ⟨res, w', r'⟩
      have hbnd := hb st'.window st'.remainder
      rw [hs] at hbnd
      simp only [readNextLines, hw, if_true, hrf, hok, hs]
      simpa using hbnd
    · have hok' : ok = false := by
        cases ok
        · rfl
        · exact absurd rfl hok
      simp only [readNextLines, hw, if_true, hrf, hok', Bool.false_eq_true,
        if_false]
      simp
  · rcases hs : scanStep rc n [] [] st.window st.remainder with ⟨res, w', r'⟩
    have hbnd := hb st.window st.remainder
    rw [hs] at hbnd
    simp only [readNextLines, hw, Bool.false_eq_true, if_false, hs]
    simpa using hbnd

/-- Claim C7: a final line lacking a trailing terminator is still emitted
exactly once — the reader behaves exactly as if the missing terminator had
been present (`Refill` synthesizes one at end of stream). -/
theorem c7_final_line (bufSize n : Nat) (rc : Bool) (s : List Char) (c : Char)
    (hc : isTermChar c = false)
    (hfit : ∀ l ∈ splitLines (s ++ [c]), l.length < bufSize) :
    drainAll bufSize rc n (s ++ [c]) =
      drainAll bufSize rc n ((s ++ [c]) ++ ['\n']) := by
  have hsnoc := splitLines_snoc_newline s hc
  have hfit2 : ∀ l ∈ splitLines ((s ++ [c]) ++ ['\n']), l.length < bufSize := by
    rw [hsnoc]
    exact hfit
  rw [drainAll_eq_refBlocks bufSize rc n _ hfit, drainAll_eq_refBlocks bufSize rc n _ hfit2,
    refBlocks, refBlocks, hsnoc]

/-- Witness for C7 on the unterminated input `"G1"`. -/
theorem c7_witness :
    (isTermChar '1' = false ∧
      (∀ l ∈ splitLines (['G'] ++ ['1']), l.length < 8)) ∧
    drainAll 8 true 1 (['G'] ++ ['1']) =
      drainAll 8 true 1 ((['G'] ++ ['1']) ++ ['\n']) :=
  ⟨⟨by decide, by decide⟩, c7_final_line 8 1 true ['G'] '1' (by decide) (by decide)⟩

/-- Claim C8 counterexample: the delivered blocks depend on the buffer
capacity when a line does not fit — capacity 1 truncates `"ab\n"` to
`"a\n"` (the refill requests zero bytes, reads nothing, and treats that as
end of stream), capacity 3 delivers `"ab\n"`. -/
theorem c8_counterexample :
    drainAll 1 true 1 ['a', 'b', '\n'] = [['a', '\n']] ∧
    drainAll 3 true 1 ['a', 'b', '\n'] = [['a', 'b', '\n']] ∧
    drainAll 1 true 1 ['a', 'b', '\n'] ≠ drainAll 3 true 1 ['a', 'b', '\n'] := by
  decide

/-- Claim C8 (amended): draining until exhaustion yields the same blocks in
the same order for any two buffer capacities, provided every logical line
of the input is shorter than each capacity. -/
theorem c8_buffer_independence (b₁ b₂ n : Nat) (rc : Bool) (input : List Char)
    (h₁ : ∀ l ∈ splitLines input, l.length < b₁)
    (h₂ : ∀ l ∈ splitLines input, l.length < b₂) :
    drainAll b₁ rc n input = drainAll b₂ rc n input := by
  rw [drainAll_eq_refBlocks b₁ rc n input h₁,
    drainAll_eq_refBlocks b₂ rc n input h₂]

/-- Witness for the amended C8 with capacities 5 and 9. -/
theorem c8_witness :
    ((∀ l ∈ splitLines ['G', '1', '\n', 'X', '\n'], l.length < 5) ∧
      (∀ l ∈ splitLines ['G', '1', '\n', 'X', '\n'], l.length < 9)) ∧
    drainAll 5 true 1 ['G', '1', '\n', 'X', '\n'] =
      drainAll 9 true 1 ['G', '1', '\n', 'X', '\n'] :=
  ⟨⟨by decide, by decide⟩,
   c8_buffer_independence 5 9 1 true _ (by decide) (by decide)⟩

/-! ## Protocol engine lemmas -/

theorem nuM_pos (st : ReaderState) (he : st.eof = false) : 2 ≤ nuM st := by
  rw [nuM, rsMeasure, he]
  simp only [if_bool_false]
  omega

theorem engineFuel_step (bufSize : Nat) (rc : Bool) (n : Nat)
    (uF iF dF : Bool) (fuel : Nat) (st : ReaderState)
    (resp : List (List Char)) (written : Nat) (he : st.eof = false) :
    engineFuel bufSize rc n uF iF dF (fuel + 1) st resp written =
      if (processBatch uF iF (readNextLines bufSize rc n st).1 resp).1 then
        engineFuel bufSize rc n uF iF dF fuel (readNextLines bufSize rc n st).2
          (processBatch uF iF (readNextLines bufSize rc n st).1 resp).2
          (if dF then written
           else written + (readNextLines bufSize rc n st).1.length)
      else ⟨(if dF then written
             else written + (readNextLines bufSize rc n st).1.length),
            true, (processBatch uF iF (readNextLines bufSize rc n st).1 resp).2⟩ := by
  simp only [engineFuel, he, Bool.false_eq_true, if_false]

theorem processBlock_noflow (i : Bool) (resp : List (List Char)) :
    processBlock false i resp = (true, resp) := by
  cases resp <;> simp [processBlock]

theorem processBatch_noflow (i : Bool) :
    ∀ (batch resp : List (List Char)), processBatch false i batch resp = (true, resp)
  | [], _ => rfl
  | b :: bs, resp => by
    rw [processBatch, processBlock_noflow]
    simpa using processBatch_noflow i bs resp

theorem engineFuel_dry (bufSize : Nat) (rc : Bool) (n : Nat) (i : Bool) :
    ∀ (fuel : Nat) (st : ReaderState) (resp : List (List Char)) (written : Nat),
      engineFuel bufSize rc n false i true fuel st resp written =
        ⟨written, false, resp⟩
  | 0, _, _, _ => rfl
  | fuel + 1, st, resp, written => by
    by_cases he : st.eof = true
    · simp [engineFuel, he]
    · have he' : st.eof = false := by
        cases hb : st.eof
        · rfl
        · exact absurd hb he
      rw [engineFuel_step bufSize rc n false i true fuel st resp written he',
        processBatch_noflow]
      simp only [if_true, if_pos trivial]
      exact engineFuel_dry bufSize rc n i fuel _ resp written

/-! ## Claims about the protocol engine -/

/-- Claim C1: while awaiting a block acknowledgment, a line with
case-insensitive front `"ok"` is classified Ok and ends the wait; a line
with case-insensitive front `"error"` or `"alarm"` is classified Error and
ends the wait; end of stream on the response reader is classified Error
with the synthetic connection-closed message; every other non-empty line
is classified Message and does not end the wait — the engine goes on
reading the next response line for the same block. -/
theorem c1_response_classification (m : List Char) (rest : List (List Char))
    (inter : Bool) :
    (hasPfxCaseless m okPfx = true →
      readResponseLine true (m :: rest) = (.ok, none, rest) ∧
      processBlock true inter (m :: rest) = (true, rest)) ∧
    (hasPfxCaseless m okPfx = false →
      (hasPfxCaseless m errPfx || hasPfxCaseless m alarmPfx) = true →
      readResponseLine true (m :: rest) = (.err, some m, rest) ∧
      processBlock true inter (m :: rest) = (inter, rest)) ∧
    readResponseLine true [] = (.err, some connClosedMsg, []) ∧
    (m ≠ [] → hasPfxCaseless m okPfx = false →
      hasPfxCaseless m errPfx = false → hasPfxCaseless m alarmPfx = false →
      readResponseLine true (m :: rest) = (.message, some m, rest) ∧
      processBlock true inter (m :: rest) = processBlock true inter rest) := by
  refine ⟨fun hok => ⟨?_, ?_⟩, fun hnok herr => ⟨?_, ?_⟩, ?_, fun _ hnok hne hna => ⟨?_, ?_⟩⟩
  · simp [readResponseLine, hok]
  · simp [processBlock, hok]
  · simp [readResponseLine, hnok, herr]
  · simp [processBlock, hnok, herr]
  · simp [readResponseLine]
  · simp [readResponseLine, hnok, hne, hna]
  · simp [processBlock, hnok, hne, hna]

/-- Witness for C1 at concrete response lines. -/
theorem c1_witness :
    (hasPfxCaseless ['O', 'K', '!'] okPfx = true ∧
      hasPfxCaseless ['E', 'r', 'r', 'o', 'r', ' ', 'x'] okPfx = false ∧
      hasPfxCaseless ['E', 'r', 'r', 'o', 'r', ' ', 'x'] errPfx = true) ∧
    readResponseLine true [['O', 'K', '!']] = (.ok, none, []) ∧
    readResponseLine true [['E', 'r', 'r', 'o', 'r', ' ', 'x']] =
      (.err, some ['E', 'r', 'r', 'o', 'r', ' ', 'x'], []) ∧
    readResponseLine true [] = (.err, some connClosedMsg, []) ∧
    processBlock true false [['T', ':', '2', '0'], ['O', 'K', '!']] = (true, []) :=
  ⟨⟨by decide, by decide, by decide⟩,
   ((c1_response_classification ['O', 'K', '!'] [] false).1 (by decide)).1,
   (((c1_response_classification ['E', 'r', 'r', 'o', 'r', ' ', 'x'] [] false).2.1
      (by decide)) (by decide)).1,
   (c1_response_classification [] [] false).2.2.1,
   (((c1_response_classification ['T', ':', '2', '0'] [['O', 'K', '!']] false).2.2.2
      (by decide) (by decide) (by decide) (by decide)).2).trans
     (((c1_response_classification ['O', 'K', '!'] [] false).1 (by decide)).2)⟩

/-- Claim C2: with flow control on, pacing of one outstanding block, and a
non-interactive session, a terminal Error response to the second block
makes the engine terminate immediately via `exit(1)` having written
exactly 2 blocks, regardless of how much input remains. -/
theorem c2_error_exit (bufSize : Nat) (rc : Bool) (st : ReaderState)
    (x y r₁ r₂ : List Char) (rest : List (List Char))
    (he : st.eof = false)
    (h1 : (readNextLines bufSize rc 1 st).1 = [x])
    (he1 : (readNextLines bufSize rc 1 st).2.eof = false)
    (h2 : (readNextLines bufSize rc 1 (readNextLines bufSize rc 1 st).2).1 = [y])
    (hok : hasPfxCaseless r₁ okPfx = true)
    (hek : hasPfxCaseless r₂ okPfx = false)
    (her : hasPfxCaseless r₂ errPfx = true) :
    engineRun bufSize rc 1 true false false st (r₁ :: r₂ :: rest) =
      ⟨2, true, rest⟩ := by
  have hpb1 : processBlock true false (r₁ :: r₂ :: rest) = (true, r₂ :: rest) := by
    simp [processBlock, hok]
  have hbatch1 : processBatch true false [x] (r₁ :: r₂ :: rest) =
      (true, r₂ :: rest) := by
    simp [processBatch, hpb1]
  have hpb2 : processBlock true false (r₂ :: rest) = (false, rest) := by
    simp [processBlock, hek, her]
  have hbatch2 : processBatch true false [y] (r₂ :: rest) = (false, rest) := by
    simp [processBatch, hpb2]
  obtain ⟨f, hf⟩ : ∃ f, nuM st = f + 1 :=
    ⟨nuM st - 1, by have := nuM_pos st he; omega⟩
  have hstep := nuM_step bufSize rc 1 st he
  have hf2 : 2 ≤ nuM (readNextLines bufSize rc 1 st).2 :=
    nuM_pos _ he1
  obtain ⟨f', hf'⟩ : ∃ f', f = f' + 1 := ⟨f - 1, by omega⟩
  rw [engineRun, hf, engineFuel_step bufSize rc 1 true false false f st _ 0 he,
    h1, hbatch1]
  simp only [if_true, if_pos trivial, Bool.false_eq_true, if_false,
    List.length_singleton]
  have hle : nuM (readNextLines bufSize rc 1 st).2 ≤ f := by omega
  rw [hf', engineFuel_step bufSize rc 1 true false false f'
    (readNextLines bufSize rc 1 st).2 (r₂ :: rest) (0 + 1) he1, h2, hbatch2]
  simp

/-- Witness for C2: an `ok` then an `error` reply over a three-line file —
the run exits with exactly 2 blocks written. -/
theorem c2_witness :
    ((initState ['G', '1', '\n', 'G', '2', '\n', 'G', '3', '\n']).eof = false ∧
      (readNextLines 32 true 1
        (initState ['G', '1', '\n', 'G', '2', '\n', 'G', '3', '\n'])).1 =
        [['G', '1', '\n']] ∧
      (readNextLines 32 true 1
        (initState ['G', '1', '\n', 'G', '2', '\n', 'G', '3', '\n'])).2.eof = false ∧
      (readNextLines 32 true 1 (readNextLines 32 true 1
        (initState ['G', '1', '\n', 'G', '2', '\n', 'G', '3', '\n'])).2).1 =
        [['G', '2', '\n']] ∧
      hasPfxCaseless ['o', 'k'] okPfx = true ∧
      hasPfxCaseless ['e', 'r', 'r', 'o', 'r', ' ', 'x'] okPfx = false ∧
      hasPfxCaseless ['e', 'r', 'r', 'o', 'r', ' ', 'x'] errPfx = true) ∧
    engineRun 32 true 1 true false false
      (initState ['G', '1', '\n', 'G', '2', '\n', 'G', '3', '\n'])
      [['o', 'k'], ['e', 'r', 'r', 'o', 'r', ' ', 'x']] = ⟨2, true, []⟩ :=
  ⟨⟨by decide, by decide, by decide, by decide, by decide, by decide, by decide⟩,
   c2_error_exit 32 true
     (initState ['G', '1', '\n', 'G', '2', '\n', 'G', '3', '\n'])
     ['G', '1', '\n'] ['G', '2', '\n'] ['o', 'k']
     ['e', 'r', 'r', 'o', 'r', ' ', 'x'] []
     (by decide) (by decide) (by decide) (by decide)
     (by decide) (by decide) (by decide)⟩

/-- Claim C10: a connection string of exactly `"/dev/null"` forces dry-run
mode — the run is identical to one with the dry-run flag set, no transport
is opened, no initial discard happens, no block is written, no response is
consumed, flow control is off, and the engine finishes without an error
exit (every block is treated as acknowledged Ok). -/
theorem c10_devnull_dry_run (uf i : Bool) (bufSize : Nat) (rc : Bool) (n : Nat)
    (input : List Char) (resp : List (List Char)) :
    mainModel false uf i devNullStr bufSize rc n input resp =
      mainModel true uf i devNullStr bufSize rc n input resp ∧
    (mainModel false uf i devNullStr bufSize rc n input resp).openedTransport
      = false ∧
    (mainModel false uf i devNullStr bufSize rc n input resp).initialDiscard
      = false ∧
    (mainModel false uf i devNullStr bufSize rc n input resp).usedFlow = false ∧
    (mainModel false uf i devNullStr bufSize rc n input resp).engine =
      ⟨0, false, resp⟩ := by
  have hdn : decide (devNullStr = devNullStr) = true := by simp
  have heng : ∀ d : Bool, (d || decide (devNullStr = devNullStr)) = true := by
    intro d
    simp [hdn]
  refine ⟨?_, ?_, ?_, ?_, ?_⟩
  · simp [mainModel, hdn]
  · simp [mainModel, hdn]
  · simp [mainModel, hdn]
  · simp [mainModel, hdn]
  · show engineRun bufSize rc n
        (uf && !(false || decide (devNullStr = devNullStr))) i
        (false || decide (devNullStr = devNullStr)) (initState input) resp =
      ⟨0, false, resp⟩
    have hd : (false || decide (devNullStr = devNullStr)) = true := by simp
    rw [hd]
    simp only [Bool.not_true, Bool.and_false]
    exact engineFuel_dry bufSize rc n i _ _ resp 0

/-! ## Claims about the transport opener -/


/-- Claim C9 counterexample: on `"/dev/ttyACM0,b999999999"` where the path
opens as descriptor 3, the invalid speed does surface as a configuration
error, but `OpenMachineConnection` nevertheless falls through to the TCP
attempt, and descriptor 3 is left open (never closed). -/
theorem c9_counterexample :
    (openMachineConnectionModel os0 desc0).triedTCP = true ∧
    (openMachineConnectionModel os0 desc0).leakedFds = [3] ∧
    (openMachineConnectionModel os0 desc0).fd = none ∧
    (openMachineConnectionModel os0 desc0).configErr =
      some (invalidSpeedMsg ['9', '9', '9', '9', '9', '9', '9', '9', '9']) := by
  refine ⟨?_, ?_, ?_, ?_⟩ <;> rfl

/-- Claim C9 (amended): if the serial device path opens successfully but
the speed parameter is invalid, `SetTTYParams` reports a configuration
error that enumerates the valid speeds, `OpenTTY` fails before any data is
sent — but the implementation then also attempts the descriptor as a TCP
endpoint, and the successfully opened serial descriptor is leaked (not
closed), so a partial connection is left open. -/
theorem c9_invalid_speed (os : TtyOs) (descriptor : List Char) (fd : Nat)
    (hopen : os.openPath (descriptor.takeWhile (fun c => c ≠ ',')) = some fd)
    (hne : (stripSpeedB (paramsOf descriptor)).isEmpty = false)
    (hbad : atoiModel (stripSpeedB (paramsOf descriptor)) ∉ validSpeeds) :
    openMachineConnectionModel os descriptor =
      ⟨os.resolveTCP descriptor, [fd], true,
        some (invalidSpeedMsg (stripSpeedB (paramsOf descriptor)))⟩ := by
  have hset : setTTYParams (os.ttyOk fd) (paramsOf descriptor) =
      .error (invalidSpeedMsg (stripSpeedB (paramsOf descriptor))) := by
    rw [setTTYParams]
    simp only [hne, Bool.false_eq_true, if_false, if_neg hbad]
  rw [openMachineConnectionModel, openTTYModel]
  simp only [hopen, hset]

/-- Witness for the amended C9 at the counterexample system. -/
theorem c9_witness :
    (os0.openPath (desc0.takeWhile (fun c => c ≠ ',')) = some 3 ∧
      (stripSpeedB (paramsOf desc0)).isEmpty = false ∧
      atoiModel (stripSpeedB (paramsOf desc0)) ∉ validSpeeds) ∧
    openMachineConnectionModel os0 desc0 =
      ⟨os0.resolveTCP desc0, [3], true,
        some (invalidSpeedMsg (stripSpeedB (paramsOf desc0)))⟩ :=
  ⟨⟨by decide, by decide, by decide⟩,
   c9_invalid_speed os0 desc0 3 (by decide) (by decide) (by decide)⟩
